import Mathlib

/-!
Verification of the UTF-8 validating decoder in `src/parsing/utf8.cc`.

The byte range is modelled as a `List Nat` of byte values (each `< 256`;
theorems that need byte-ness take it as a hypothesis, matching the spec's
data model of 8-bit units).  Iterator positions become offsets from the
start of the range.  `char32_t` codepoints and `reason_t::position` are
modelled as `Nat` (all values that arise are non-negative and far below
2^32, so no wraparound modelling is needed).  The decoder communicates
through out-parameters in C++; here each operation returns a record with
the same fields.
-/

set_option maxRecDepth 8000

namespace utf8

/-- Mask constants from the top of `utf8.cc`. -/
def HIGH_BIT : Nat := 0x80

def HIGH_TWO_BITS : Nat := 0xC0

def HIGH_THREE_BITS : Nat := 0xE0

def HIGH_FOUR_BITS : Nat := 0xF0

def HIGH_FIVE_BITS : Nat := 0xF8

/-- 0xxxxxxx - ASCII character. -/
def is_standalone (c : Nat) : Bool := c &&& HIGH_BIT == 0

/-- 110xxxxx - two character multibyte. -/
def is_twobyte_start (c : Nat) : Bool := c &&& HIGH_THREE_BITS == HIGH_TWO_BITS

/-- 1110xxxx - three character multibyte. -/
def is_threebyte_start (c : Nat) : Bool := c &&& HIGH_FOUR_BITS == HIGH_THREE_BITS

/-- 11110xxx - four character multibyte. -/
def is_fourbyte_start (c : Nat) : Bool := c &&& HIGH_FIVE_BITS == HIGH_FOUR_BITS

/-- 10xxxxxx - continuation character. -/
def is_continuation (c : Nat) : Bool := c &&& HIGH_TWO_BITS == HIGH_BIT

/-- C source: `(c & ~bits) & 0xFF`.  All masks used are below 0x100, so the
32-bit complement `~bits` restricted to the low byte is `bits ^^^ 0xFF`. -/
def extract_bits (c bits : Nat) : Nat := (c &&& (bits ^^^ 0xFF)) &&& 0xFF

def continuation_data (c : Nat) : Nat := extract_bits c HIGH_TWO_BITS

def extract_and_shift (c bits amount : Nat) : Nat := extract_bits c bits <<< amount

/-- Explanation string for the spec's `EndOfInputInContinuation` error kind. -/
def eocMsg : String := "Expected continuation byte, saw end of string"

/-- Explanation string for the spec's `UnexpectedByte` error kind. -/
def unexpMsg : String := "Expected continuation byte, saw something else"

/-- Explanation string for the spec's `OverlongEncoding` error kind. -/
def overlongMsg : String := "Overlong encoding seen"

/-- Explanation string for the spec's `CodepointOutOfRange` error kind. -/
def rangeMsg : String := "Non-Unicode character encoded (beyond U+10FFFF)"

/-- Explanation string for the spec's `InvalidLeadByte` error kind. -/
def invalidMsg : String := "Invalid initial byte seen"

/-- The out-parameter `reason_t` (declared in the missing header, written by
the code in `utf8.cc`): an explanation string ("" on success) and a byte
offset. -/
structure reason_t where
  explanation : String
  position : Nat
deriving DecidableEq, Repr

/-- The full result of one `next_codepoint` call: the returned iterator (as an
offset from the `start` argument), the decoded `*codepoint`, and the
`*reason` out-parameter. -/
structure DecodeResult where
  pos : Nat
  codepoint : Nat
  reason : reason_t
deriving DecidableEq, Repr

/-- The `fail` helper of `utf8.cc`: records the explanation, sets
`reason->position = position - start - 1` (the `-1` is the source's
post-increment correction), sets the codepoint to U+FFFD, and returns the
current position.  `position` here is the offset from `start` at the moment
`fail` is called; it is at least 1 on every call site. -/
def fail (explanation : String) (position : Nat) : DecodeResult :=
  ⟨position, 0xFFFD, ⟨explanation, position - 1⟩⟩

/-- The `is_valid_continuation_byte` helper, applied to the suffix of the
range that begins at the position being checked. -/
def is_valid_continuation_byte : List Nat → Option String
  | [] => some eocMsg
  | c :: _ => if is_continuation c then none else some unexpMsg

/-- The `next_codepoint` function of `utf8.cc`, over the range `[start,end)`
given as the list `l`; returned positions are offsets from `start`.  `cp0` is
the value the caller's `char32_t` out-variable held before the call (the
C++ code leaves it untouched when `position == end`).  The continuation-byte
checks are the inlined cases of `is_valid_continuation_byte`; the partial
`|=` accumulations that the source performs before a failing check are not
observable (on failure `fail` overwrites the codepoint with U+FFFD), so the
accumulated value is built where it is first compared or returned. -/
def next_codepoint (cp0 : Nat) (l : List Nat) : DecodeResult :=
  match l with
  | [] => ⟨0, cp0, ⟨"", 0⟩⟩
  | current :: rest =>
    if is_standalone current then ⟨1, current, ⟨"", 0⟩⟩
    else if is_twobyte_start current then
      match rest with
      | [] => fail eocMsg 1
      | c1 :: _ =>
        if is_continuation c1 then
          let cp := extract_and_shift current HIGH_THREE_BITS 6 ||| continuation_data c1
          if cp < 0x80 then fail overlongMsg 2 else ⟨2, cp, ⟨"", 0⟩⟩
        else fail unexpMsg 1
    else if is_threebyte_start current then
      match rest with
      | [] => fail eocMsg 1
      | c1 :: rest1 =>
        if is_continuation c1 then
          match rest1 with
          | [] => fail eocMsg 2
          | c2 :: _ =>
            if is_continuation c2 then
              let cp := extract_and_shift current HIGH_FOUR_BITS 12 |||
                continuation_data c1 <<< 6 ||| continuation_data c2
              if cp < 0x800 then fail overlongMsg 3 else ⟨3, cp, ⟨"", 0⟩⟩
            else fail unexpMsg 2
        else fail unexpMsg 1
    else if is_fourbyte_start current then
      match rest with
      | [] => fail eocMsg 1
      | c1 :: rest1 =>
        if is_continuation c1 then
          match rest1 with
          | [] => fail eocMsg 2
          | c2 :: rest2 =>
            if is_continuation c2 then
              match rest2 with
              | [] => fail eocMsg 3
              | c3 :: _ =>
                if is_continuation c3 then
                  let cp := extract_and_shift current HIGH_FIVE_BITS 18 |||
                    continuation_data c1 <<< 12 ||| continuation_data c2 <<< 6 |||
                    continuation_data c3
                  if cp < 0x10000 then fail overlongMsg 4
                  else if cp > 0x10FFFF then fail rangeMsg 4
                  else ⟨4, cp, ⟨"", 0⟩⟩
                else fail unexpMsg 3
            else fail unexpMsg 2
        else fail unexpMsg 1
    else fail invalidMsg 1

/-- Modelled from the spec: the canonical (minimal-length) UTF-8 encoder for
a scalar value.  No encoder exists in the source (spec section 1 lists
encoding as a non-goal); spec section 8's round-trip property quantifies over
"any byte sequence produced by a correct encoder", which this definition
realises in its standard form. -/
def encode_char (c : Nat) : List Nat :=
  if c < 0x80 then [c]
  else if c < 0x800 then [0xC0 + c / 64, 0x80 + c % 64]
  else if c < 0x10000 then [0xE0 + c / 4096, 0x80 + c / 64 % 64, 0x80 + c % 64]
  else [0xF0 + c / 0x40000, 0x80 + c / 4096 % 64, 0x80 + c / 64 % 64, 0x80 + c % 64]

/-- Modelled from the spec: byte sequence produced by a correct encoder from
a finite sequence of scalar values. -/
def encode : List Nat → List Nat
  | [] => []
  | c :: cs => encode_char c ++ encode cs

/-- Disjoint bit-or is addition: the accumulation step `acc <<< k ||| m` of
the decoder, with `m` confined to the low `k` bits, adds the two values. -/
theorem lor_mul_add (a k m : Nat) (hm : m < 2 ^ k) :
    a * 2 ^ k ||| m = a * 2 ^ k + m := by
  apply Nat.eq_of_testBit_eq
  intro i
  rw [Nat.testBit_lor]
  rcases Nat.lt_or_ge i k with h | h
  · obtain ⟨d, rfl⟩ : ∃ d, k = d + 1 + i := ⟨k - i - 1, by omega⟩
    have hlow : (a * 2 ^ (d + 1 + i)).testBit i = false := by
      rw [← Nat.shiftLeft_eq, Nat.testBit_shiftLeft]
      simp [show ¬(d + 1 + i ≤ i) by omega]
    rw [hlow, Bool.false_or, Nat.testBit_to_div_mod, Nat.testBit_to_div_mod]
    have hsplit : a * 2 ^ (d + 1 + i) + m = m + a * 2 ^ d * 2 * 2 ^ i := by
      rw [Nat.pow_add, Nat.pow_add]; ring
    rw [hsplit, Nat.add_mul_div_right _ _ (Nat.two_pow_pos i),
      Nat.add_mul_mod_self_right]
  · obtain ⟨e, rfl⟩ : ∃ e, i = k + e := ⟨i - k, by omega⟩
    have hhigh : m.testBit (k + e) = false :=
      Nat.testBit_lt_two_pow
        (lt_of_lt_of_le hm (Nat.pow_le_pow_right (by norm_num) (Nat.le_add_right _ _)))
    have hshift : (a * 2 ^ k).testBit (k + e) = a.testBit e := by
      rw [← Nat.shiftLeft_eq, Nat.testBit_shiftLeft]
      simp
    rw [hhigh, hshift, Bool.or_false, Nat.testBit_to_div_mod, Nat.testBit_to_div_mod]
    have hdiv : (a * 2 ^ k + m) / 2 ^ (k + e) = a / 2 ^ e := by
      rw [Nat.pow_add, ← Nat.div_div_eq_div_mul, Nat.add_comm,
        Nat.add_mul_div_right _ _ (Nat.two_pow_pos k),
        Nat.div_eq_of_lt hm, Nat.zero_add]
    rw [hdiv]

/-- Every branch of `next_codepoint` on a non-empty range returns a position
at least one byte past the start: the lead byte is consumed unconditionally
before any check can fail.  This is the measure that makes the scanning
loops below terminate. -/
theorem next_codepoint_pos_pos (cp0 : Nat) (l : List Nat) (h : l ≠ []) :
    1 ≤ (next_codepoint cp0 l).pos := by
  match l with
  | [] => exact absurd rfl h
  | c :: rest =>
    simp only [next_codepoint]
    repeat' split
    all_goals simp [fail]

/-- The loop of `is_valid_internal`, with `l` the not-yet-scanned suffix
`[cbegin,end)` and `off = cbegin - begin`.  `none` means the whole suffix
decodes cleanly (the C++ function returns `true`); `some r` is the `false`
return with the out-parameter `reason` holding the first failure, its offset
made absolute by the `reason->position += cbegin - begin` correction. -/
def is_valid_internal (l : List Nat) (off : Nat) : Option reason_t :=
  if hne : l = [] then none
  else
    if (next_codepoint 0 l).reason.explanation = "" then
      is_valid_internal (l.drop (next_codepoint 0 l).pos) (off + (next_codepoint 0 l).pos)
    else
      some ⟨(next_codepoint 0 l).reason.explanation,
        (next_codepoint 0 l).reason.position + off⟩
termination_by l.length
decreasing_by
  have h1 := next_codepoint_pos_pos 0 l hne
  have h2 : l.length ≠ 0 := fun hz => hne (List.eq_nil_of_length_eq_zero hz)
  simp only [List.length_drop]
  omega

/-- The boolean `is_valid` entry points of `utf8.cc` (they share
`is_valid_internal` and differ only in the string representation). -/
def is_valid (l : List Nat) : Bool := (is_valid_internal l 0).isNone

/-- Modelled from the spec: "decoding the buffer codepoint by codepoint with
decode_one" (claim C1) — repeatedly calls `next_codepoint` from the current
position and collects the codepoints it reports. -/
def decode_all (l : List Nat) : List Nat :=
  if hne : l = [] then []
  else
    (next_codepoint 0 l).codepoint :: decode_all (l.drop (next_codepoint 0 l).pos)
termination_by l.length
decreasing_by
  have h1 := next_codepoint_pos_pos 0 l hne
  have h2 : l.length ≠ 0 := fun hz => hne (List.eq_nil_of_length_eq_zero hz)
  simp only [List.length_drop]
  omega

/-- The `iterator_t` state (fields as used by `iterator_t::advance` in
`utf8.cc`; the class itself is declared in the missing header): the whole
buffer `[start,end)`, the current position as an offset from `start`, the
`seen_end` flag, the last decoded codepoint `last_seen`, and the `reason`
of the last step. -/
structure iterator_t where
  buf : List Nat
  position : Nat
  seen_end : Bool
  last_seen : Nat
  reason : reason_t
deriving DecidableEq, Repr

/-- Modelled from the spec: `saw_error` / "failed?" is declared in the
missing header; spec section 4.4 defines it as "reason non-empty". -/
def iterator_t.saw_error (it : iterator_t) : Bool := it.reason.explanation ≠ ""

/-- `iterator_t::advance` from `utf8.cc`: no-op when `seen_end`; an explicit
terminal step when `position == end`; otherwise one `next_codepoint` step
whose failure offset is made absolute by adding `position - start`. -/
def iterator_t.advance (it : iterator_t) : iterator_t :=
  if it.seen_end then it
  else if it.position = it.buf.length then
    { it with seen_end := true, last_seen := 0, reason := ⟨"", 0⟩ }
  else
    { it with
      position := it.position + (next_codepoint it.last_seen (it.buf.drop it.position)).pos,
      last_seen := (next_codepoint it.last_seen (it.buf.drop it.position)).codepoint,
      reason :=
        if (next_codepoint it.last_seen (it.buf.drop it.position)).reason.explanation ≠ "" then
          ⟨(next_codepoint it.last_seen (it.buf.drop it.position)).reason.explanation,
           (next_codepoint it.last_seen (it.buf.drop it.position)).reason.position + it.position⟩
        else (next_codepoint it.last_seen (it.buf.drop it.position)).reason }

/-- The do-while loop of `next_textual_element`, entered with
`off = cbegin - begin` (`off = 0` on the first iteration, which is exactly
the C++ condition `cbegin == begin`).  `l` is the whole range `[begin,end)`.
Returns the final iterator (as an offset from `begin`) and the `reason`
out-parameter.  The loop guard `cbegin != end` is rendered as
`l.length ≤ off + pos` — iterator positions never exceed `end`, so the two
agree on all reachable states. -/
def next_textual_element_from (l : List Nat) (keep_going : Nat → Bool) (off : Nat) :
    Nat × reason_t :=
  if (next_codepoint 0 (l.drop off)).reason.explanation ≠ "" then
    if off = 0 then
      (off + (next_codepoint 0 (l.drop off)).pos,
       ⟨(next_codepoint 0 (l.drop off)).reason.explanation,
        (next_codepoint 0 (l.drop off)).reason.position + off⟩)
    else
      (off,
       ⟨(next_codepoint 0 (l.drop off)).reason.explanation,
        (next_codepoint 0 (l.drop off)).reason.position + off⟩)
  else if off ≠ 0 ∧ keep_going (next_codepoint 0 (l.drop off)).codepoint = false then
    (off, ⟨"", 0⟩)
  else if hend : l.length ≤ off + (next_codepoint 0 (l.drop off)).pos then
    (off + (next_codepoint 0 (l.drop off)).pos, ⟨"", 0⟩)
  else
    next_textual_element_from l keep_going (off + (next_codepoint 0 (l.drop off)).pos)
termination_by l.length - off
decreasing_by
  have hd : l.drop off ≠ [] := by
    intro hnil
    have hlen : l.length ≤ off := by
      have := congrArg List.length hnil
      simp only [List.length_drop, List.length_nil] at this
      omega
    rw [hnil] at hend
    exact hend (by simpa [next_codepoint] using hlen)
  have h1 := next_codepoint_pos_pos 0 (l.drop off) hd
  omega

/-- The `next_textual_element` function of `utf8.cc`. -/
def next_textual_element (l : List Nat) (keep_going : Nat → Bool) : Nat × reason_t :=
  next_textual_element_from l keep_going 0

/-- Bytes below 0x80 are classified as standalone ASCII. -/
theorem ascii_is_standalone : ∀ c < 0x80, is_standalone c = true := by decide

/-- A standalone byte is below 0x80. -/
theorem standalone_lt : ∀ b < 256, is_standalone b = true → b < 0x80 := by decide

/-- Classification and payload extraction for a canonical two-byte lead. -/
theorem lead2_facts : ∀ q < 32, is_standalone (0xC0 + q) = false ∧
    is_twobyte_start (0xC0 + q) = true ∧
    extract_bits (0xC0 + q) HIGH_THREE_BITS = q := by decide

/-- Classification and payload extraction for a canonical three-byte lead. -/
theorem lead3_facts : ∀ q < 16, is_standalone (0xE0 + q) = false ∧
    is_twobyte_start (0xE0 + q) = false ∧
    is_threebyte_start (0xE0 + q) = true ∧
    extract_bits (0xE0 + q) HIGH_FOUR_BITS = q := by decide

/-- Classification and payload extraction for a canonical four-byte lead. -/
theorem lead4_facts : ∀ q < 8, is_standalone (0xF0 + q) = false ∧
    is_twobyte_start (0xF0 + q) = false ∧
    is_threebyte_start (0xF0 + q) = false ∧
    is_fourbyte_start (0xF0 + q) = true ∧
    extract_bits (0xF0 + q) HIGH_FIVE_BITS = q := by decide

/-- Classification and payload extraction for a canonical continuation byte. -/
theorem cont_facts : ∀ m < 64, is_continuation (0x80 + m) = true ∧
    continuation_data (0x80 + m) = m := by decide

/-- A two-byte lead byte is its payload plus the 0xC0 marker. -/
theorem twobyte_decomp : ∀ b < 256, is_twobyte_start b = true →
    extract_bits b HIGH_THREE_BITS < 32 ∧
    b = 0xC0 + extract_bits b HIGH_THREE_BITS := by decide

/-- A three-byte lead byte is its payload plus the 0xE0 marker. -/
theorem threebyte_decomp : ∀ b < 256, is_threebyte_start b = true →
    extract_bits b HIGH_FOUR_BITS < 16 ∧
    b = 0xE0 + extract_bits b HIGH_FOUR_BITS := by decide

/-- A four-byte lead byte is its payload plus the 0xF0 marker. -/
theorem fourbyte_decomp : ∀ b < 256, is_fourbyte_start b = true →
    extract_bits b HIGH_FIVE_BITS < 8 ∧
    b = 0xF0 + extract_bits b HIGH_FIVE_BITS := by decide

/-- A continuation byte is its 6-bit payload plus the 0x80 marker. -/
theorem cont_decomp : ∀ b < 256, is_continuation b = true →
    continuation_data b < 64 ∧ b = 0x80 + continuation_data b := by decide

/-- Instance of `lor_mul_add` for a 6-bit slot. -/
theorem lor64 (a m : Nat) (hm : m < 64) : a * 64 ||| m = a * 64 + m := by
  have h := lor_mul_add a 6 m (by norm_num [hm])
  norm_num at h
  exact h

/-- Instance of `lor_mul_add` for a 12-bit slot. -/
theorem lor4096 (a m : Nat) (hm : m < 4096) : a * 4096 ||| m = a * 4096 + m := by
  have h := lor_mul_add a 12 m (by norm_num [hm])
  norm_num at h
  exact h

/-- Instance of `lor_mul_add` for an 18-bit slot. -/
theorem lor262144 (a m : Nat) (hm : m < 262144) : a * 262144 ||| m = a * 262144 + m := by
  have h := lor_mul_add a 18 m (by norm_num [hm])
  norm_num at h
  exact h

/-- Decoding a canonically encoded scalar value (any prefix of a larger
buffer) succeeds, consumes exactly the encoding, and reproduces the value,
with an empty reason. -/
theorem decode_encode (cp0 : Nat) (c : Nat) (hc : c ≤ 0x10FFFF) (rest : List Nat) :
    next_codepoint cp0 (encode_char c ++ rest) =
      ⟨(encode_char c).length, c, ⟨"", 0⟩⟩ := by
  rcases Nat.lt_or_ge c 0x80 with h1 | h1
  · have hs := ascii_is_standalone c h1
    simp [encode_char, h1, next_codepoint, hs]
  rcases Nat.lt_or_ge c 0x800 with h2 | h2
  · -- two-byte range
    have hq : c / 64 < 32 := by omega
    have hm : c % 64 < 64 := Nat.mod_lt _ (by norm_num)
    obtain ⟨hs, ht, he⟩ := lead2_facts (c / 64) hq
    obtain ⟨hcont, hcd⟩ := cont_facts (c % 64) hm
    have hcp : extract_and_shift (0xC0 + c / 64) HIGH_THREE_BITS 6 |||
        continuation_data (0x80 + c % 64) = c := by
      rw [extract_and_shift, he, hcd, Nat.shiftLeft_eq]
      norm_num
      rw [lor64 _ _ hm]
      omega
    simp [encode_char, show ¬c < 0x80 by omega, h2, next_codepoint, hs, ht, hcont, hcp,
      show ¬c < 0x80 by omega]
  rcases Nat.lt_or_ge c 0x10000 with h3 | h3
  · -- three-byte range
    have hq : c / 4096 < 16 := by omega
    have hm1 : c / 64 % 64 < 64 := Nat.mod_lt _ (by norm_num)
    have hm2 : c % 64 < 64 := Nat.mod_lt _ (by norm_num)
    obtain ⟨hs, ht2, ht3, he⟩ := lead3_facts (c / 4096) hq
    obtain ⟨hcont1, hcd1⟩ := cont_facts (c / 64 % 64) hm1
    obtain ⟨hcont2, hcd2⟩ := cont_facts (c % 64) hm2
    have hcp : extract_and_shift (0xE0 + c / 4096) HIGH_FOUR_BITS 12 |||
        continuation_data (0x80 + c / 64 % 64) <<< 6 |||
        continuation_data (0x80 + c % 64) = c := by
      rw [extract_and_shift, he, hcd1, hcd2, Nat.shiftLeft_eq, Nat.shiftLeft_eq,
        show (2 : Nat) ^ 12 = 4096 from by norm_num,
        show (2 : Nat) ^ 6 = 64 from by norm_num]
      rw [lor4096 _ _ (by omega)]
      rw [show c / 4096 * 4096 + c / 64 % 64 * 64 =
            (c / 4096 * 64 + c / 64 % 64) * 64 by ring]
      rw [lor64 _ _ hm2]
      omega
    simp [encode_char, show ¬c < 0x80 by omega, show ¬c < 0x800 by omega, h3,
      next_codepoint, hs, ht2, ht3, hcont1, hcont2, hcp, show ¬c < 0x800 by omega]
  · -- four-byte range
    have hq : c / 262144 < 8 := by omega
    have hm1 : c / 4096 % 64 < 64 := Nat.mod_lt _ (by norm_num)
    have hm2 : c / 64 % 64 < 64 := Nat.mod_lt _ (by norm_num)
    have hm3 : c % 64 < 64 := Nat.mod_lt _ (by norm_num)
    obtain ⟨hs, ht2, ht3, ht4, he⟩ := lead4_facts (c / 262144) hq
    obtain ⟨hcont1, hcd1⟩ := cont_facts (c / 4096 % 64) hm1
    obtain ⟨hcont2, hcd2⟩ := cont_facts (c / 64 % 64) hm2
    obtain ⟨hcont3, hcd3⟩ := cont_facts (c % 64) hm3
    have hcp : extract_and_shift (0xF0 + c / 262144) HIGH_FIVE_BITS 18 |||
        continuation_data (0x80 + c / 4096 % 64) <<< 12 |||
        continuation_data (0x80 + c / 64 % 64) <<< 6 |||
        continuation_data (0x80 + c % 64) = c := by
      rw [extract_and_shift, he, hcd1, hcd2, hcd3, Nat.shiftLeft_eq, Nat.shiftLeft_eq,
        Nat.shiftLeft_eq, show (2 : Nat) ^ 18 = 262144 from by norm_num,
        show (2 : Nat) ^ 12 = 4096 from by norm_num,
        show (2 : Nat) ^ 6 = 64 from by norm_num]
      rw [lor262144 _ _ (by omega)]
      rw [show c / 262144 * 262144 + c / 4096 % 64 * 4096 =
            (c / 262144 * 64 + c / 4096 % 64) * 4096 by ring]
      rw [lor4096 _ _ (by omega)]
      rw [show (c / 262144 * 64 + c / 4096 % 64) * 4096 + c / 64 % 64 * 64 =
            ((c / 262144 * 64 + c / 4096 % 64) * 64 + c / 64 % 64) * 64 by ring]
      rw [lor64 _ _ hm3]
      omega
    simp [encode_char, show ¬c < 0x80 by omega, show ¬c < 0x800 by omega,
      show ¬c < 0x10000 by omega, next_codepoint, hs, ht2, ht3, ht4,
      hcont1, hcont2, hcont3, hcp, show ¬c < 0x10000 by omega,
      show ¬c > 0x10FFFF by omega]

/-- The canonical encoding of a scalar value is never empty. -/
theorem encode_char_ne_nil (c : Nat) : encode_char c ≠ [] := by
  rw [encode_char]
  split_ifs <;> simp

/-- Scanning the encoding of any in-range scalar sequence reports no
failure, from any base offset. -/
theorem is_valid_internal_encode (L : List Nat) (h : ∀ c ∈ L, c ≤ 0x10FFFF) :
    ∀ off, is_valid_internal (encode L) off = none := by
  induction L with
  | nil =>
    intro off
    rw [show encode [] = [] from rfl, is_valid_internal]
    simp
  | cons c cs ih =>
    intro off
    have hc : c ≤ 0x10FFFF := h c (List.mem_cons_self c cs)
    have hcs : ∀ x ∈ cs, x ≤ 0x10FFFF := fun x hx => h x (List.mem_cons_of_mem c hx)
    rw [show encode (c :: cs) = encode_char c ++ encode cs from rfl]
    have hne : encode_char c ++ encode cs ≠ [] := by
      simp [encode_char_ne_nil c]
    rw [is_valid_internal, dif_neg hne, decode_encode 0 c hc (encode cs)]
    simp only [if_pos rfl, List.drop_left]
    exact ih hcs _

/-- Stepping `next_codepoint` over the encoding of an in-range scalar
sequence yields back the sequence. -/
theorem decode_all_encode (L : List Nat) (h : ∀ c ∈ L, c ≤ 0x10FFFF) :
    decode_all (encode L) = L := by
  induction L with
  | nil => rw [show encode [] = [] from rfl, decode_all]; simp
  | cons c cs ih =>
    have hc : c ≤ 0x10FFFF := h c (List.mem_cons_self c cs)
    have hcs : ∀ x ∈ cs, x ≤ 0x10FFFF := fun x hx => h x (List.mem_cons_of_mem c hx)
    rw [show encode (c :: cs) = encode_char c ++ encode cs from rfl]
    have hne : encode_char c ++ encode cs ≠ [] := by
      simp [encode_char_ne_nil c]
    rw [decode_all, dif_neg hne, decode_encode 0 c hc (encode cs)]
    simp only [List.drop_left]
    rw [ih hcs]

/-- C1: for every byte sequence produced by a correct UTF-8 encoder from
scalar values in [0, 0x10FFFF], `validate` returns true and decoding the
buffer codepoint by codepoint with `decode_one` yields exactly the original
scalar values in order. -/
theorem claim_C1_encoder_roundtrip (L : List Nat) (h : ∀ c ∈ L, c ≤ 0x10FFFF) :
    is_valid (encode L) = true ∧ decode_all (encode L) = L := by
  constructor
  · rw [is_valid, is_valid_internal_encode L h 0]
    rfl
  · exact decode_all_encode L h

/-- Witness for C1 at the scalar sequence [0x24, 0xA2, 0x20AC, 0x10348]
(one scalar of each encoded length). -/
theorem claim_C1_witness :
    is_valid (encode [0x24, 0xA2, 0x20AC, 0x10348]) = true ∧
      decode_all (encode [0x24, 0xA2, 0x20AC, 0x10348]) = [0x24, 0xA2, 0x20AC, 0x10348] :=
  claim_C1_encoder_roundtrip [0x24, 0xA2, 0x20AC, 0x10348] (by decide)

/-- C2: for every non-empty input range, `decode_one` returns a new position
strictly greater than the starting position — it advances by at least one
byte on every path, success or failure.  The Validity Scanner's termination
is witnessed by the well-founded definitions of `is_valid_internal` and
`decode_all`, whose decreasing measure is exactly this fact. -/
theorem claim_C2_decoder_advances (cp0 : Nat) (l : List Nat) (h : l ≠ []) :
    1 ≤ (next_codepoint cp0 l).pos :=
  next_codepoint_pos_pos cp0 l h

/-- Witness for C2 at the malformed single-byte input [0x80]. -/
theorem claim_C2_witness : 1 ≤ (next_codepoint 0 [0x80]).pos :=
  claim_C2_decoder_advances 0 [0x80] (by decide)

/-- C10: the decoder does not reject UTF-16 surrogate values: every
three-byte sequence encoding a value in [0xD800, 0xDFFF] decodes
successfully with empty reason to that value (in particular
[0xED, 0xA0, 0x80] decodes to 0xD800), and `validate` accepts a buffer of
such sequences. -/
theorem claim_C10_surrogates_accepted :
    (∀ c, 0xD800 ≤ c → c ≤ 0xDFFF →
      next_codepoint 0 (encode_char c) = ⟨3, c, ⟨"", 0⟩⟩) ∧
    (∀ L, (∀ c ∈ L, 0xD800 ≤ c ∧ c ≤ 0xDFFF) → is_valid (encode L) = true) ∧
    next_codepoint 0 [0xED, 0xA0, 0x80] = ⟨3, 0xD800, ⟨"", 0⟩⟩ := by
  refine ⟨fun c h1 h2 => ?_, fun L hL => ?_, by decide⟩
  · have hd := decode_encode 0 c (by omega) []
    rw [List.append_nil] at hd
    have hlen : (encode_char c).length = 3 := by
      rw [encode_char, if_neg (by omega), if_neg (by omega), if_pos (by omega)]
      rfl
    rw [hd, hlen]
  · rw [is_valid,
      is_valid_internal_encode L (fun c hc => le_trans (hL c hc).2 (by norm_num)) 0]
    rfl

/-- Witness for C10 at the surrogate 0xD800 and the buffer encoding
[0xD800, 0xDFFF]. -/
theorem claim_C10_witness :
    next_codepoint 0 (encode_char 0xD800) = ⟨3, 0xD800, ⟨"", 0⟩⟩ ∧
      is_valid (encode [0xD800, 0xDFFF]) = true :=
  ⟨claim_C10_surrogates_accepted.1 0xD800 (by decide) (by decide),
   claim_C10_surrogates_accepted.2.1 [0xD800, 0xDFFF] (by decide)⟩

/-- C8: decoding [0xF4, 0x90, 0x80, 0x80] (which encodes 0x110000) fails
with `CodepointOutOfRange` (`rangeMsg`), the reported reason offset is 3
(the offset of the last consumed byte), and all four bytes are consumed. -/
theorem claim_C8_out_of_range :
    next_codepoint 0 [0xF4, 0x90, 0x80, 0x80] = ⟨4, 0xFFFD, ⟨rangeMsg, 3⟩⟩ := by
  decide

/-- Counterexample to C5 as stated: decoding [0xC0, 0x80] does fail with
`OverlongEncoding`, but the reported reason offset is not 0. -/
theorem claim_C5_counterexample :
    (next_codepoint 0 [0xC0, 0x80]).reason.explanation = overlongMsg ∧
      (next_codepoint 0 [0xC0, 0x80]).reason.position ≠ 0 := by
  decide

/-- C5 amended: decoding [0xC0, 0x80] fails with `OverlongEncoding` and the
reported reason offset is 1 — the offset of the last consumed byte, as spec
section 4.2 itself prescribes (`fail` computes `position - start - 1` after
both bytes are consumed). -/
theorem claim_C5_amended :
    next_codepoint 0 [0xC0, 0x80] = ⟨2, 0xFFFD, ⟨overlongMsg, 1⟩⟩ := by
  decide

/-- Counterexample to C4 as stated: decoding [0xE0, 0x80] does fail with
`EndOfInputInContinuation`, but the reported reason offset is not 2. -/
theorem claim_C4_counterexample :
    (next_codepoint 0 [0xE0, 0x80]).reason.explanation = eocMsg ∧
      (next_codepoint 0 [0xE0, 0x80]).reason.position ≠ 2 := by
  decide

/-- The 1/2/3/4-byte lead classes are mutually exclusive on byte values. -/
theorem lead_classes_exclusive : ∀ b < 256,
    (is_twobyte_start b = true → is_standalone b = false) ∧
    (is_threebyte_start b = true →
      is_standalone b = false ∧ is_twobyte_start b = false) ∧
    (is_fourbyte_start b = true →
      is_standalone b = false ∧ is_twobyte_start b = false ∧
      is_threebyte_start b = false) := by
  decide

/-- C4 amended: whenever a multi-byte sequence is truncated by the end of
the buffer (a 2/3/4-byte lead followed only by continuation bytes, fewer
than the sequence requires), `next_codepoint` fails with
`EndOfInputInContinuation`; the reported reason offset is the offset OF the
last available byte (`length - 1`, one less than the claim stated), and the
returned position is the end of the buffer. -/
theorem claim_C4_amended (cp0 b : Nat) (rest : List Nat) (hb : b < 256)
    (hlead : is_twobyte_start b = true ∨ is_threebyte_start b = true ∨
      is_fourbyte_start b = true)
    (hcont : ∀ x ∈ rest, is_continuation x = true)
    (hshort : (b :: rest).length <
      (if is_twobyte_start b then 2 else if is_threebyte_start b then 3 else 4)) :
    (next_codepoint cp0 (b :: rest)).reason.explanation = eocMsg ∧
      (next_codepoint cp0 (b :: rest)).reason.position = rest.length ∧
      (next_codepoint cp0 (b :: rest)).pos = (b :: rest).length := by
  have hexcl := lead_classes_exclusive b hb
  rcases hlead with h2 | h3 | h4
  · have hs := hexcl.1 h2
    have hrest : rest = [] := by
      rw [h2] at hshort
      simp only [if_pos] at hshort
      cases rest with
      | nil => rfl
      | cons x xs => exfalso; simp at hshort; omega
    subst hrest
    simp [next_codepoint, hs, h2, fail]
  · obtain ⟨hs, ht2⟩ := hexcl.2.1 h3
    have hrest : rest = [] ∨ ∃ x, rest = [x] := by
      rw [ht2, h3] at hshort
      simp only [if_neg, if_pos, Bool.false_eq_true, not_false_eq_true] at hshort
      cases rest with
      | nil => exact Or.inl rfl
      | cons x xs =>
        cases xs with
        | nil => exact Or.inr ⟨x, rfl⟩
        | cons y ys => simp at hshort; omega
    rcases hrest with rfl | ⟨x, rfl⟩
    · simp [next_codepoint, hs, ht2, h3, fail]
    · have hx : is_continuation x = true := hcont x (List.mem_cons_self x [])
      simp [next_codepoint, hs, ht2, h3, hx, fail]
  · obtain ⟨hs, ht2, ht3⟩ := hexcl.2.2 h4
    have hrest : rest = [] ∨ (∃ x, rest = [x]) ∨ ∃ x y, rest = [x, y] := by
      rw [ht2, ht3] at hshort
      simp only [if_neg, Bool.false_eq_true, not_false_eq_true] at hshort
      cases rest with
      | nil => exact Or.inl rfl
      | cons x xs =>
        cases xs with
        | nil => exact Or.inr (Or.inl ⟨x, rfl⟩)
        | cons y ys =>
          cases ys with
          | nil => exact Or.inr (Or.inr ⟨x, y, rfl⟩)
          | cons z zs => simp at hshort; omega
    rcases hrest with rfl | ⟨x, rfl⟩ | ⟨x, y, rfl⟩
    · simp [next_codepoint, hs, ht2, ht3, h4, fail]
    · have hx : is_continuation x = true := hcont x (List.mem_cons_self x [])
      simp [next_codepoint, hs, ht2, ht3, h4, hx, fail]
    · have hx : is_continuation x = true := hcont x (List.mem_cons_self x [y])
      have hy : is_continuation y = true :=
        hcont y (List.mem_cons_of_mem x (List.mem_cons_self y []))
      simp [next_codepoint, hs, ht2, ht3, h4, hx, hy, fail]

/-- Witness for the amended C4 at the truncated three-byte sequence
[0xE0, 0x80]: `EndOfInputInContinuation` with reason offset 1 and returned
position 2. -/
theorem claim_C4_witness :
    (next_codepoint 0 [0xE0, 0x80]).reason.explanation = eocMsg ∧
      (next_codepoint 0 [0xE0, 0x80]).reason.position = 1 ∧
      (next_codepoint 0 [0xE0, 0x80]).pos = 2 := by
  have h := claim_C4_amended 0 0xE0 [0x80] (by decide) (by decide) (by decide) (by decide)
  simpa using h

/-- Counterexample to C3 as stated: decoding [0xC2, 0x41] fails with
`UnexpectedByte` (the offending non-continuation byte 0x41 is at offset 1),
but the returned position is not 2 = one past that byte — the code checks
the byte before consuming it, so the returned position is 1, i.e. AT the
offending byte. -/
theorem claim_C3_counterexample :
    (next_codepoint 0 [0xC2, 0x41]).reason.explanation = unexpMsg ∧
      (next_codepoint 0 [0xC2, 0x41]).pos ≠ 2 := by
  decide

/-- C3 amended: on every failure the returned position is the reported
reason offset plus one, and is at least 1 (forward progress).  Which byte
that is depends on the error kind: for `InvalidLeadByte` it is one past the
lead byte; for `OverlongEncoding` and `CodepointOutOfRange` it is one past
the last consumed byte of the sequence; for `EndOfInputInContinuation` it is
the end of the buffer; but for `UnexpectedByte` it is the offset OF the
offending non-continuation byte (still inside the buffer), not one past it —
the code checks the byte before the post-increment consumes it. -/
theorem claim_C3_amended (cp0 : Nat) (l : List Nat) :
    ((next_codepoint cp0 l).reason.explanation ≠ "" →
      (next_codepoint cp0 l).pos = (next_codepoint cp0 l).reason.position + 1 ∧
      1 ≤ (next_codepoint cp0 l).pos) ∧
    ((next_codepoint cp0 l).reason.explanation = invalidMsg →
      (next_codepoint cp0 l).pos = 1) ∧
    ((next_codepoint cp0 l).reason.explanation = overlongMsg →
      (next_codepoint cp0 l).pos =
        (if is_twobyte_start (l.headD 0) then 2
         else if is_threebyte_start (l.headD 0) then 3 else 4)) ∧
    ((next_codepoint cp0 l).reason.explanation = rangeMsg →
      (next_codepoint cp0 l).pos = 4) ∧
    ((next_codepoint cp0 l).reason.explanation = eocMsg →
      (next_codepoint cp0 l).pos = l.length) ∧
    ((next_codepoint cp0 l).reason.explanation = unexpMsg →
      (next_codepoint cp0 l).pos < l.length ∧
      is_continuation (l.getD (next_codepoint cp0 l).pos 0) = false) := by
  match l with
  | [] =>
    refine ⟨fun h => absurd rfl h, ?_, ?_, ?_, ?_, ?_⟩ <;>
      · intro h
        simp [next_codepoint, invalidMsg, overlongMsg, rangeMsg, eocMsg, unexpMsg] at h
  | c :: rest =>
    simp only [next_codepoint]
    repeat' split
    all_goals
      refine ⟨fun h => ?_, fun h => ?_, fun h => ?_, fun h => ?_, fun h => ?_, fun h => ?_⟩
    all_goals simp_all [fail, eocMsg, unexpMsg, overlongMsg, rangeMsg, invalidMsg]

/-- Witness for the amended C3 at [0xC2, 0x41]: the `UnexpectedByte` failure
returns position = reported offset + 1, which is still inside the buffer and
points at the offending non-continuation byte. -/
theorem claim_C3_witness :
    (next_codepoint 0 [0xC2, 0x41]).pos =
      (next_codepoint 0 [0xC2, 0x41]).reason.position + 1 ∧
    (next_codepoint 0 [0xC2, 0x41]).pos < [0xC2, 0x41].length ∧
    is_continuation ([0xC2, 0x41].getD (next_codepoint 0 [0xC2, 0x41]).pos 0) = false := by
  have h := claim_C3_amended 0 [0xC2, 0x41]
  exact ⟨(h.1 (by decide)).1, h.2.2.2.2.2 (by decide)⟩

/-- Every `next_codepoint` result either has an empty explanation or carries
the replacement codepoint U+FFFD (every `fail` call sets it). -/
theorem decode_shape (cp0 : Nat) (l : List Nat) :
    (next_codepoint cp0 l).reason.explanation = "" ∨
      (next_codepoint cp0 l).codepoint = 0xFFFD := by
  match l with
  | [] => exact Or.inl rfl
  | c :: rest =>
    simp only [next_codepoint]
    repeat' split
    all_goals simp [fail]

/-- A successful decode of a non-empty byte range consumed exactly the
canonical (minimal) encoding of the codepoint it returned: the decoded value
is genuine, not an artifact.  (Together with `decode_encode` this
characterises success completely.) -/
theorem decode_success_canonical (cp0 : Nat) (l : List Nat) (hb : ∀ b ∈ l, b < 256)
    (hne : l ≠ []) (hok : (next_codepoint cp0 l).reason.explanation = "") :
    l.take (next_codepoint cp0 l).pos = encode_char (next_codepoint cp0 l).codepoint := by
  match l with
  | [] => exact absurd rfl hne
  | c :: rest =>
    have hc : c < 256 := hb c (List.mem_cons_self c rest)
    by_cases hs : is_standalone c
    · have hres : next_codepoint cp0 (c :: rest) = ⟨1, c, ⟨"", 0⟩⟩ := by
        simp [next_codepoint, hs]
      rw [hres]
      have hlt : c < 0x80 := standalone_lt c hc hs
      simp [encode_char, hlt]
    · by_cases ht2 : is_twobyte_start c
      · match rest with
        | [] =>
          exfalso
          simp [next_codepoint, hs, ht2, fail, eocMsg] at hok
        | c1 :: rest1 =>
          have hc1 : c1 < 256 :=
            hb c1 (List.mem_cons_of_mem c (List.mem_cons_self c1 rest1))
          by_cases hcont : is_continuation c1
          · obtain ⟨hm, hmdec⟩ := cont_decomp c1 hc1 hcont
            obtain ⟨hq, hcdec⟩ := twobyte_decomp c hc ht2
            have hval : extract_and_shift c HIGH_THREE_BITS 6 ||| continuation_data c1 =
                extract_bits c HIGH_THREE_BITS * 64 + continuation_data c1 := by
              rw [extract_and_shift, Nat.shiftLeft_eq,
                show (2 : Nat) ^ 6 = 64 from by norm_num, lor64 _ _ hm]
            by_cases hover :
                extract_and_shift c HIGH_THREE_BITS 6 ||| continuation_data c1 < 0x80
            · exfalso
              simp [next_codepoint, hs, ht2, hcont, hover, fail, overlongMsg] at hok
            · have hres : next_codepoint cp0 (c :: c1 :: rest1) =
                  ⟨2, extract_and_shift c HIGH_THREE_BITS 6 ||| continuation_data c1,
                   ⟨"", 0⟩⟩ := by
                simp [next_codepoint, hs, ht2, hcont, hover]
              rw [hres]
              show List.take 2 (c :: c1 :: rest1) =
                encode_char (extract_and_shift c HIGH_THREE_BITS 6 ||| continuation_data c1)
              rw [hval] at hover ⊢
              rw [encode_char, if_neg hover, if_pos (by omega)]
              have e1 : (extract_bits c HIGH_THREE_BITS * 64 + continuation_data c1) / 64 =
                  extract_bits c HIGH_THREE_BITS := by omega
              have e2 : (extract_bits c HIGH_THREE_BITS * 64 + continuation_data c1) % 64 =
                  continuation_data c1 := by omega
              rw [e1, e2, ← hcdec, ← hmdec]
              simp
          · exfalso
            simp [next_codepoint, hs, ht2, hcont, fail, unexpMsg] at hok
      · by_cases ht3 : is_threebyte_start c
        · match rest with
          | [] =>
            exfalso
            simp [next_codepoint, hs, ht2, ht3, fail, eocMsg] at hok
          | c1 :: rest1 =>
            have hc1 : c1 < 256 :=
              hb c1 (List.mem_cons_of_mem c (List.mem_cons_self c1 rest1))
            by_cases hcont1 : is_continuation c1
            · match rest1 with
              | [] =>
                exfalso
                simp [next_codepoint, hs, ht2, ht3, hcont1, fail, eocMsg] at hok
              | c2 :: rest2 =>
                have hc2 : c2 < 256 :=
                  hb c2 (List.mem_cons_of_mem c
                    (List.mem_cons_of_mem c1 (List.mem_cons_self c2 rest2)))
                by_cases hcont2 : is_continuation c2
                · obtain ⟨hm1, hm1dec⟩ := cont_decomp c1 hc1 hcont1
                  obtain ⟨hm2, hm2dec⟩ := cont_decomp c2 hc2 hcont2
                  obtain ⟨hq, hcdec⟩ := threebyte_decomp c hc ht3
                  have hval : extract_and_shift c HIGH_FOUR_BITS 12 |||
                      continuation_data c1 <<< 6 ||| continuation_data c2 =
                      extract_bits c HIGH_FOUR_BITS * 4096 +
                        continuation_data c1 * 64 + continuation_data c2 := by
                    rw [extract_and_shift, Nat.shiftLeft_eq, Nat.shiftLeft_eq,
                      show (2 : Nat) ^ 12 = 4096 from by norm_num,
                      show (2 : Nat) ^ 6 = 64 from by norm_num,
                      lor4096 _ _ (by omega)]
                    rw [show extract_bits c HIGH_FOUR_BITS * 4096 +
                          continuation_data c1 * 64 =
                          (extract_bits c HIGH_FOUR_BITS * 64 + continuation_data c1) * 64
                        by ring]
                    rw [lor64 _ _ hm2]
                  by_cases hover : extract_and_shift c HIGH_FOUR_BITS 12 |||
                      continuation_data c1 <<< 6 ||| continuation_data c2 < 0x800
                  · exfalso
                    simp [next_codepoint, hs, ht2, ht3, hcont1, hcont2, hover, fail,
                      overlongMsg] at hok
                  · have hres : next_codepoint cp0 (c :: c1 :: c2 :: rest2) =
                        ⟨3, extract_and_shift c HIGH_FOUR_BITS 12 |||
                          continuation_data c1 <<< 6 ||| continuation_data c2,
                         ⟨"", 0⟩⟩ := by
                      simp [next_codepoint, hs, ht2, ht3, hcont1, hcont2, hover]
                    rw [hres]
                    show List.take 3 (c :: c1 :: c2 :: rest2) =
                      encode_char (extract_and_shift c HIGH_FOUR_BITS 12 |||
                        continuation_data c1 <<< 6 ||| continuation_data c2)
                    rw [hval] at hover ⊢
                    rw [encode_char, if_neg (by omega), if_neg hover, if_pos (by omega)]
                    have e1 : (extract_bits c HIGH_FOUR_BITS * 4096 +
                        continuation_data c1 * 64 + continuation_data c2) / 4096 =
                        extract_bits c HIGH_FOUR_BITS := by omega
                    have e2 : (extract_bits c HIGH_FOUR_BITS * 4096 +
                        continuation_data c1 * 64 + continuation_data c2) / 64 % 64 =
                        continuation_data c1 := by omega
                    have e3 : (extract_bits c HIGH_FOUR_BITS * 4096 +
                        continuation_data c1 * 64 + continuation_data c2) % 64 =
                        continuation_data c2 := by omega
                    rw [e1, e2, e3, ← hcdec, ← hm1dec, ← hm2dec]
                    simp
                · exfalso
                  simp [next_codepoint, hs, ht2, ht3, hcont1, hcont2, fail, unexpMsg] at hok
            · exfalso
              simp [next_codepoint, hs, ht2, ht3, hcont1, fail, unexpMsg] at hok
        · by_cases ht4 : is_fourbyte_start c
          · match rest with
            | [] =>
              exfalso
              simp [next_codepoint, hs, ht2, ht3, ht4, fail, eocMsg] at hok
            | c1 :: rest1 =>
              have hc1 : c1 < 256 :=
                hb c1 (List.mem_cons_of_mem c (List.mem_cons_self c1 rest1))
              by_cases hcont1 : is_continuation c1
              · match rest1 with
                | [] =>
                  exfalso
                  simp [next_codepoint, hs, ht2, ht3, ht4, hcont1, fail, eocMsg] at hok
                | c2 :: rest2 =>
                  have hc2 : c2 < 256 :=
                    hb c2 (List.mem_cons_of_mem c
                      (List.mem_cons_of_mem c1 (List.mem_cons_self c2 rest2)))
                  by_cases hcont2 : is_continuation c2
                  · match rest2 with
                    | [] =>
                      exfalso
                      simp [next_codepoint, hs, ht2, ht3, ht4, hcont1, hcont2, fail,
                        eocMsg] at hok
                    | c3 :: rest3 =>
                      have hc3 : c3 < 256 :=
                        hb c3 (List.mem_cons_of_mem c (List.mem_cons_of_mem c1
                          (List.mem_cons_of_mem c2 (List.mem_cons_self c3 rest3))))
                      by_cases hcont3 : is_continuation c3
                      · obtain ⟨hm1, hm1dec⟩ := cont_decomp c1 hc1 hcont1
                        obtain ⟨hm2, hm2dec⟩ := cont_decomp c2 hc2 hcont2
                        obtain ⟨hm3, hm3dec⟩ := cont_decomp c3 hc3 hcont3
                        obtain ⟨hq, hcdec⟩ := fourbyte_decomp c hc ht4
                        have hval : extract_and_shift c HIGH_FIVE_BITS 18 |||
                            continuation_data c1 <<< 12 ||| continuation_data c2 <<< 6 |||
                            continuation_data c3 =
                            extract_bits c HIGH_FIVE_BITS * 262144 +
                              continuation_data c1 * 4096 + continuation_data c2 * 64 +
                              continuation_data c3 := by
                          rw [extract_and_shift, Nat.shiftLeft_eq, Nat.shiftLeft_eq,
                            Nat.shiftLeft_eq,
                            show (2 : Nat) ^ 18 = 262144 from by norm_num,
                            show (2 : Nat) ^ 12 = 4096 from by norm_num,
                            show (2 : Nat) ^ 6 = 64 from by norm_num,
                            lor262144 _ _ (by omega)]
                          rw [show extract_bits c HIGH_FIVE_BITS * 262144 +
                                continuation_data c1 * 4096 =
                                (extract_bits c HIGH_FIVE_BITS * 64 +
                                  continuation_data c1) * 4096 by ring]
                          rw [lor4096 _ _ (by omega)]
                          rw [show (extract_bits c HIGH_FIVE_BITS * 64 +
                                continuation_data c1) * 4096 + continuation_data c2 * 64 =
                                ((extract_bits c HIGH_FIVE_BITS * 64 +
                                  continuation_data c1) * 64 + continuation_data c2) * 64
                              by ring]
                          rw [lor64 _ _ hm3]
                        by_cases hover : extract_and_shift c HIGH_FIVE_BITS 18 |||
                            continuation_data c1 <<< 12 ||| continuation_data c2 <<< 6 |||
                            continuation_data c3 < 0x10000
                        · exfalso
                          simp [next_codepoint, hs, ht2, ht3, ht4, hcont1, hcont2, hcont3,
                            hover, fail, overlongMsg] at hok
                        · by_cases hrange : extract_and_shift c HIGH_FIVE_BITS 18 |||
                              continuation_data c1 <<< 12 ||| continuation_data c2 <<< 6 |||
                              continuation_data c3 > 0x10FFFF
                          · exfalso
                            simp [next_codepoint, hs, ht2, ht3, ht4, hcont1, hcont2,
                              hcont3, hover, hrange, fail, rangeMsg] at hok
                          · have hres : next_codepoint cp0 (c :: c1 :: c2 :: c3 :: rest3) =
                                ⟨4, extract_and_shift c HIGH_FIVE_BITS 18 |||
                                  continuation_data c1 <<< 12 |||
                                  continuation_data c2 <<< 6 ||| continuation_data c3,
                                 ⟨"", 0⟩⟩ := by
                              simp [next_codepoint, hs, ht2, ht3, ht4, hcont1, hcont2,
                                hcont3, hover, hrange]
                            rw [hres]
                            show List.take 4 (c :: c1 :: c2 :: c3 :: rest3) =
                              encode_char (extract_and_shift c HIGH_FIVE_BITS 18 |||
                                continuation_data c1 <<< 12 |||
                                continuation_data c2 <<< 6 ||| continuation_data c3)
                            rw [hval] at hover ⊢
                            rw [encode_char, if_neg (by omega), if_neg (by omega),
                              if_neg hover]
                            have e1 : (extract_bits c HIGH_FIVE_BITS * 262144 +
                                continuation_data c1 * 4096 + continuation_data c2 * 64 +
                                continuation_data c3) / 262144 =
                                extract_bits c HIGH_FIVE_BITS := by omega
                            have e2 : (extract_bits c HIGH_FIVE_BITS * 262144 +
                                continuation_data c1 * 4096 + continuation_data c2 * 64 +
                                continuation_data c3) / 4096 % 64 =
                                continuation_data c1 := by omega
                            have e3 : (extract_bits c HIGH_FIVE_BITS * 262144 +
                                continuation_data c1 * 4096 + continuation_data c2 * 64 +
                                continuation_data c3) / 64 % 64 =
                                continuation_data c2 := by omega
                            have e4 : (extract_bits c HIGH_FIVE_BITS * 262144 +
                                continuation_data c1 * 4096 + continuation_data c2 * 64 +
                                continuation_data c3) % 64 =
                                continuation_data c3 := by omega
                            rw [e1, e2, e3, e4, ← hcdec, ← hm1dec, ← hm2dec, ← hm3dec]
                            simp
                      · exfalso
                        simp [next_codepoint, hs, ht2, ht3, ht4, hcont1, hcont2, hcont3,
                          fail, unexpMsg] at hok
                  · exfalso
                    simp [next_codepoint, hs, ht2, ht3, ht4, hcont1, hcont2, fail,
                      unexpMsg] at hok
              · exfalso
                simp [next_codepoint, hs, ht2, ht3, ht4, hcont1, fail, unexpMsg] at hok
          · exfalso
            simp [next_codepoint, hs, ht2, ht3, ht4, fail, invalidMsg] at hok

/-- C6: for every `decode_one` call on a non-empty byte range, the returned
explanation is empty if and only if the codepoint is a genuine decoded value
rather than the replacement sentinel set on failure: on every failure the
codepoint is 0xFFFD, and on success the consumed bytes are exactly the
canonical encoding of the returned codepoint. -/
theorem claim_C6_reason_iff_genuine (cp0 : Nat) (l : List Nat)
    (hb : ∀ b ∈ l, b < 256) (hne : l ≠ []) :
    ((next_codepoint cp0 l).reason.explanation ≠ "" →
      (next_codepoint cp0 l).codepoint = 0xFFFD) ∧
    ((next_codepoint cp0 l).reason.explanation = "" →
      l.take (next_codepoint cp0 l).pos = encode_char (next_codepoint cp0 l).codepoint) :=
  ⟨fun h => (decode_shape cp0 l).resolve_left h,
   fun h => decode_success_canonical cp0 l hb hne h⟩

/-- Witness for C6: the failure side at [0x80] and the success side at
[0x48]. -/
theorem claim_C6_witness :
    (next_codepoint 0 [0x80]).codepoint = 0xFFFD ∧
      [0x48].take (next_codepoint 0 [0x48]).pos =
        encode_char (next_codepoint 0 [0x48]).codepoint :=
  ⟨(claim_C6_reason_iff_genuine 0 [0x80] (by decide) (by decide)).1 (by decide),
   (claim_C6_reason_iff_genuine 0 [0x48] (by decide) (by decide)).2 (by decide)⟩

/-- The element-scanner loop never returns a position before the one it was
entered at. -/
theorem nte_from_ge (l : List Nat) (kg : Nat → Bool) : ∀ n off, l.length - off ≤ n →
    off ≤ (next_textual_element_from l kg off).1 := by
  intro n
  induction n with
  | zero =>
    intro off hoff
    rw [next_textual_element_from]
    split_ifs with hA h0 hkg hend
    · exact Nat.le_add_right off _
    · exact le_rfl
    · exact le_rfl
    · exact Nat.le_add_right off _
    · exact absurd (Nat.le_trans (by omega) (Nat.le_add_right off _)) hend
  | succ n ih =>
    intro off hoff
    rw [next_textual_element_from]
    split_ifs with hA h0 hkg hend
    · exact Nat.le_add_right off _
    · exact le_rfl
    · exact le_rfl
    · exact Nat.le_add_right off _
    · have hd : l.drop off ≠ [] := by
        intro hnil
        apply hend
        have hlen := congrArg List.length hnil
        simp only [List.length_drop, List.length_nil] at hlen
        rw [hnil]
        simp only [next_codepoint]
        omega
      have hpos := next_codepoint_pos_pos 0 (l.drop off) hd
      have hoff' : l.length - (off + (next_codepoint 0 (l.drop off)).pos) ≤ n := by omega
      exact Nat.le_trans (Nat.le_add_right off _)
        (ih (off + (next_codepoint 0 (l.drop off)).pos) hoff')

/-- With the always-false predicate, the loop entered at a non-initial
position returns that position at once: a successful decode is immediately
rejected by the predicate, a failed decode returns `cbegin`. -/
theorem nte_from_false_pred (l : List Nat) (off : Nat) (h : 0 < off) :
    (next_textual_element_from l (fun _ => false) off).1 = off := by
  rw [next_textual_element_from]
  split_ifs with hA h0 hkg hend
  · exact absurd h0 (by omega)
  · rfl
  · rfl
  · exact absurd ⟨by omega, rfl⟩ hkg
  · exact absurd ⟨by omega, rfl⟩ hkg

/-- C7: for every non-empty range and every predicate, `next_element`
consumes at least the first decoded codepoint without consulting the
predicate (the bound below holds for every `keep_going`, and the
always-false predicate stops exactly after the first codepoint); and
whenever the loop, at a position after the first codepoint, decodes a
failure, it returns the position at the start of the failing codepoint —
the bad bytes are excluded from the element — together with the failure
reason (offset made absolute). -/
theorem claim_C7_element_scanner (l : List Nat) (kg : Nat → Bool) (hne : l ≠ []) :
    ((next_codepoint 0 l).reason.explanation = "" →
      (next_codepoint 0 l).pos ≤ (next_textual_element l kg).1 ∧
      (next_textual_element l (fun _ => false)).1 = (next_codepoint 0 l).pos) ∧
    (∀ off, 0 < off → (next_codepoint 0 (l.drop off)).reason.explanation ≠ "" →
      next_textual_element_from l kg off =
        (off, ⟨(next_codepoint 0 (l.drop off)).reason.explanation,
          (next_codepoint 0 (l.drop off)).reason.position + off⟩)) := by
  constructor
  · intro hok
    constructor
    · rw [next_textual_element, next_textual_element_from]
      simp only [List.drop_zero]
      split_ifs with hA hstop hend
      · exact absurd hok hA
      · exact absurd rfl hstop.1
      · simp
      · rw [Nat.zero_add]
        exact nte_from_ge l kg (l.length - (next_codepoint 0 l).pos) _ le_rfl
    · rw [next_textual_element, next_textual_element_from]
      simp only [List.drop_zero]
      split_ifs with hA hstop hend
      · exact absurd hok hA
      · exact absurd rfl hstop.1
      · simp
      · have hpos := next_codepoint_pos_pos 0 l hne
        rw [Nat.zero_add]
        exact nte_from_false_pred l _ (by omega)
  · intro off hoff hfail
    rw [next_textual_element_from, if_pos hfail, if_neg (by omega)]

/-- Witness for C7 at [0x41, 0xC0]: decoding 'A' succeeds, the element
starts with it whatever the predicate says, and the loop entered at offset
1 hits the truncated lead 0xC0, returning position 1 (start of the bad
byte) with the failure reason at absolute offset 1. -/
theorem claim_C7_witness :
    ((next_codepoint 0 [0x41, 0xC0]).pos ≤
        (next_textual_element [0x41, 0xC0] (fun _ => true)).1 ∧
      (next_textual_element [0x41, 0xC0] (fun _ => false)).1 =
        (next_codepoint 0 [0x41, 0xC0]).pos) ∧
    next_textual_element_from [0x41, 0xC0] (fun _ => true) 1 = (1, ⟨eocMsg, 1⟩) := by
  have h := claim_C7_element_scanner [0x41, 0xC0] (fun _ => true) (by decide)
  exact ⟨h.1 (by decide), (h.2 1 (by decide) (by decide)).trans (by decide)⟩

/-- C9: advancing a cursor opened on an empty buffer (position at the end,
not yet exhausted) performs the explicit terminal step — `seen_end` becomes
true, the last codepoint is cleared to 0, the reason to empty, and no
codepoint is produced; and advancing an already-exhausted cursor changes
nothing. -/
theorem claim_C9_cursor_terminal_step :
    (∀ it : iterator_t, it.buf = [] → it.position = 0 → it.seen_end = false →
      it.advance = { it with seen_end := true, last_seen := 0, reason := ⟨"", 0⟩ }) ∧
    (∀ it : iterator_t, it.seen_end = true → it.advance = it) := by
  constructor
  · intro it hbuf hpos hseen
    rw [iterator_t.advance, if_neg (by simp [hseen]), if_pos (by simp [hbuf, hpos])]
  · intro it hseen
    rw [iterator_t.advance, if_pos hseen]

/-- Witness for C9: a cursor on the empty buffer with stale codepoint and
reason fields is reset by its first `advance`, and an exhausted cursor is
left fully unchanged. -/
theorem claim_C9_witness :
    iterator_t.advance ⟨[], 0, false, 7, ⟨"x", 3⟩⟩ = ⟨[], 0, true, 0, ⟨"", 0⟩⟩ ∧
      iterator_t.advance ⟨[0x41], 1, true, 5, ⟨"y", 9⟩⟩ = ⟨[0x41], 1, true, 5, ⟨"y", 9⟩⟩ :=
  ⟨claim_C9_cursor_terminal_step.1 ⟨[], 0, false, 7, ⟨"x", 3⟩⟩ rfl rfl rfl,
   claim_C9_cursor_terminal_step.2 ⟨[0x41], 1, true, 5, ⟨"y", 9⟩⟩ rfl⟩

end utf8
